import Mathlib

/-!
Verification of the `ui` module (`src/ui/mod.rs`): the `Container`
retained-mode UI engine — element storage and identity, layout-region
resolution, dirty tracking, and pointer hit-testing/dispatch.

Shallow embedding conventions:
* Rust `f64` values are modelled as exact rationals `ℚ` (the layout
  arithmetic is treated as real-number arithmetic).
* The `HashMap<ElementRefInner, Element>` keyed store is modelled as an
  association list `List (Nat × Element)`; `elements_list` keeps the
  insertion order exactly as in the source.
* Rust panics (`unwrap` on an absent value) and potential divergence
  (unbounded parent recursion) are modelled by `Option`: `none` means the
  operation crashes / diverges.  Recursive walks over the parent chain
  take an explicit fuel argument.
* Click / hover callbacks are opaque: each `ClickFunc` / `HoverFunc` is
  represented by a `Nat` label; dispatch results record which labels are
  invoked, in order, rather than executing them.
* The concrete element kinds (Image, Batch, Text, Formatted) are outside
  the modelled core; the single `Element` record carries the shared base
  fields plus the intrinsic size that `get_size` reports.
-/

namespace UI

/-- `const SCALED_WIDTH: f64 = 854.0`. -/
def SCALED_WIDTH : ℚ := 854

/-- `const SCALED_HEIGHT: f64 = 480.0`. -/
def SCALED_HEIGHT : ℚ := 480

/-- Vertical attachment policy (`enum VAttach`). -/
inductive VAttach where
  | Top
  | Middle
  | Bottom
deriving DecidableEq, Repr

/-- Horizontal attachment policy (`enum HAttach`). -/
inductive HAttach where
  | Left
  | Center
  | Right
deriving DecidableEq, Repr

/-- Display mode (`enum Mode`): aspect-scaled or fixed-factor. -/
inductive Mode where
  | Scaled
  | Unscaled (factor : ℚ)
deriving DecidableEq, Repr

/-- Axis-aligned rectangle (`struct Region`). -/
structure Region where
  x : ℚ
  y : ℚ
  w : ℚ
  h : ℚ
deriving DecidableEq, Repr

/-- `Region::intersects`. -/
def Region.intersects (s o : Region) : Bool :=
  !(decide (s.x + s.w < o.x) || decide (s.x > o.x + o.w) ||
    decide (s.y + s.h < o.y) || decide (s.y > o.y + o.h))

/-- `const SCREEN: Region = Region{x: 0.0, y: 0.0, w: SCALED_WIDTH, h: SCALED_HEIGHT}`. -/
def SCREEN : Region := { x := 0, y := 0, w := SCALED_WIDTH, h := SCALED_HEIGHT }

/-- The shared base state of every element variant (the fields produced by
the `ui_element!` macro, plus the intrinsic size the variant's `get_size`
reports).  Identities (`ElementRefInner.index`) are `Nat`. -/
structure Element where
  dirty : Bool
  parent : Option Nat
  should_draw : Bool
  layer : Int
  x : ℚ
  y : ℚ
  v_attach : VAttach
  h_attach : HAttach
  click_funcs : List Nat
  hover_funcs : List Nat
  hovered : Bool
  size : ℚ × ℚ
deriving DecidableEq, Repr

/-- `Element::get_size` (delegates to the variant's intrinsic size). -/
def Element.get_size (e : Element) : ℚ × ℚ := e.size

/-- `Element::should_call_hover`: returns whether the hover state changed
and the element with its stored `hovered` state updated. -/
def Element.should_call_hover (e : Element) (new : Bool) : Bool × Element :=
  (e.hovered != new, { e with hovered := new })

/-- `lazy_field!(layer, ...)`: `set_layer`. -/
def Element.set_layer (e : Element) (val : Int) : Element :=
  if e.layer ≠ val then { e with layer := val, dirty := true } else e

/-- `lazy_field!(x, ...)`: `set_x`. -/
def Element.set_x (e : Element) (val : ℚ) : Element :=
  if e.x ≠ val then { e with x := val, dirty := true } else e

/-- `lazy_field!(y, ...)`: `set_y`. -/
def Element.set_y (e : Element) (val : ℚ) : Element :=
  if e.y ≠ val then { e with y := val, dirty := true } else e

/-- `lazy_field!(v_attach, ...)`: `set_v_attach`. -/
def Element.set_v_attach (e : Element) (val : VAttach) : Element :=
  if e.v_attach ≠ val then { e with v_attach := val, dirty := true } else e

/-- `lazy_field!(h_attach, ...)`: `set_h_attach`. -/
def Element.set_h_attach (e : Element) (val : HAttach) : Element :=
  if e.h_attach ≠ val then { e with h_attach := val, dirty := true } else e

/-- Association-list lookup, modelling `HashMap::get`. -/
def assoc_get {α : Type} : Nat → List (Nat × α) → Option α
  | _, [] => none
  | id, (k, v) :: rest => if k = id then some v else assoc_get id rest

/-- The `Container` state: display mode, keyed element store, and the
insertion-ordered identity sequence. -/
structure Container where
  mode : Mode
  elements : List (Nat × Element)
  elements_list : List Nat
deriving DecidableEq, Repr

/-- The scale-factor derivation shared by `tick`, `click_at` and
`hover_at` (`match self.mode { Scaled => (854/w, 480/h), Unscaled(s) => (s, s) }`). -/
def scale_factors (m : Mode) (width height : ℚ) : ℚ × ℚ :=
  match m with
  | Mode.Scaled => (SCALED_WIDTH / width, SCALED_HEIGHT / height)
  | Mode.Unscaled s => (s, s)

/-- The pointer conversion performed by `click_at` and `hover_at`:
`mx = (x / width) * SCALED_WIDTH; my = (y / height) * SCALED_HEIGHT`. -/
def pointer_virtual (x y width height : ℚ) : ℚ × ℚ :=
  ((x / width) * SCALED_WIDTH, (y / height) * SCALED_HEIGHT)

/-- The containment test of `click_at` / `hover_at`:
`mx >= r.x && mx <= r.x + r.w && my >= r.y && my <= r.y + r.h`. -/
def region_contains (r : Region) (mx my : ℚ) : Bool :=
  decide (mx ≥ r.x) && decide (mx ≤ r.x + r.w) &&
  decide (my ≥ r.y) && decide (my ≤ r.y + r.h)

/-- `Container::get_draw_region_raw`. -/
def get_draw_region_raw (e : Element) (sw sh : ℚ) (super_region : Region) : Region :=
  let (w, h) := e.get_size
  let rw := w * sw
  let rh := h * sh
  let rx :=
    match e.h_attach with
    | HAttach.Left => e.x * sw
    | HAttach.Center => (super_region.w / 2) - (rw / 2) + e.x * sw
    | HAttach.Right => super_region.w - e.x * sw - rw
  let ry :=
    match e.v_attach with
    | VAttach.Top => e.y * sh
    | VAttach.Middle => (super_region.h / 2) - (rh / 2) + e.y * sh
    | VAttach.Bottom => super_region.h - e.y * sh - rh
  { x := rx + super_region.x, y := ry + super_region.y, w := rw, h := rh }

/-- `Container::get_draw_region`: recursively resolves the parent chain.
`fuel` bounds the recursion depth; `none` models the source's panic on a
missing parent (`unwrap`) or divergence on a cyclic chain. -/
def get_draw_region (c : Container) : Nat → Element → ℚ → ℚ → Option Region
  | 0, _, _, _ => none
  | Nat.succ fuel, e, sw, sh =>
    match e.parent with
    | none => some (get_draw_region_raw e sw sh SCREEN)
    | some p =>
      match assoc_get p c.elements with
      | none => none
      | some pe =>
        match get_draw_region c fuel pe sw sh with
        | none => none
        | some sr => some (get_draw_region_raw e sw sh sr)

/-- The key-generation retry loop of `Container::add`
(`let mut r = random(); while contains_key(r) { r = random(); }`).
`rands` is the stream of values the random source produces; `none` models
an exhausted stream (the loop never finding a fresh key). -/
def fresh_key (c : Container) : List Nat → Option Nat
  | [] => none
  | r :: rest =>
    if (assoc_get r c.elements).isSome then fresh_key c rest else some r

/-- `Container::add`: pick a fresh random key, insert the wrapped element
into the keyed store and append the key to the ordered sequence, returning
the new container state together with the returned identity. -/
def Container.add (c : Container) (rands : List Nat) (e : Element) :
    Option (Container × Nat) :=
  match fresh_key c rands with
  | none => none
  | some r =>
    some ({ c with
              elements := c.elements ++ [(r, e)],
              elements_list := c.elements_list ++ [r] }, r)

/-- `Container::get`: `self.elements.get(&r.inner).unwrap()`; `none`
models the panic on an absent identity. -/
def Container.get (c : Container) (r : Nat) : Option Element :=
  assoc_get r c.elements

/-- In-place update of a stored element, modelling mutation through
`Container::get_mut`. -/
def set_elem (c : Container) (id : Nat) (e : Element) : Container :=
  { c with elements := c.elements.map (fun p => (p.1, if p.1 = id then e else p.2)) }

/-- `Iterator::position`: index of the first occurrence of `r`. -/
def position : List Nat → Nat → Option Nat
  | [], _ => none
  | a :: rest, r => if a = r then some 0 else (position rest r).map (· + 1)

/-- `Container::remove_raw`: `HashMap::remove` (silent when absent)
followed by `position(..).map(remove).unwrap()` on the ordered sequence;
`none` models the `unwrap` panic when the identity is not in the
sequence. -/
def remove_raw (c : Container) (r : Nat) : Option Container :=
  let els := c.elements.eraseP (fun p => p.1 == r)
  match position c.elements_list r with
  | none => none
  | some i =>
    some { c with elements := els, elements_list := c.elements_list.eraseIdx i }

/-- The reverse-insertion-order scan of `click_at`: find the first element
with a non-empty click-callback list whose resolved region contains the
pointer.  Returns the matched element's callback list (`some (some funcs)`),
`some none` when no element matches, and `none` when the scan panics
(absent identity or unresolvable region). -/
def click_scan (c : Container) (sw sh mx my : ℚ) :
    List Nat → Option (Option (List Nat))
  | [] => some none
  | re :: rest =>
    match assoc_get re c.elements with
    | none => none
    | some e =>
      if e.click_funcs.isEmpty then click_scan c sw sh mx my rest
      else
        match get_draw_region c (c.elements.length + 1) e sw sh with
        | none => none
        | some r =>
          if region_contains r mx my then some (some e.click_funcs)
          else click_scan c sw sh mx my rest

/-- `Container::click_at`: convert the pointer, scan in reverse insertion
order, and invoke the matched element's callbacks in registration order.
The result is the ordered list of invoked callback labels (`[]` when no
element matched); `none` models a panic. -/
def click_at (c : Container) (x y width height : ℚ) : Option (List Nat) :=
  let sf := scale_factors c.mode width height
  let mv := pointer_virtual x y width height
  match click_scan c sf.1 sf.2 mv.1 mv.2 c.elements_list.reverse with
  | none => none
  | some none => some []
  | some (some funcs) => some funcs

/-- The gathering pass of `hover_at`: for every element (in reverse
insertion order) with a non-empty hover-callback list, record its
identity, the snapshot of its callbacks, and whether the pointer is
currently inside its resolved region. -/
def hover_gather (c : Container) (sw sh mx my : ℚ) :
    List Nat → Option (List (Nat × List Nat × Bool))
  | [] => some []
  | re :: rest =>
    match assoc_get re c.elements with
    | none => none
    | some e =>
      if e.hover_funcs.isEmpty then hover_gather c sw sh mx my rest
      else
        match get_draw_region c (c.elements.length + 1) e sw sh with
        | none => none
        | some r =>
          match hover_gather c sw sh mx my rest with
          | none => none
          | some tl => some ((re, e.hover_funcs, region_contains r mx my) :: tl)

/-- The invocation pass of `hover_at`: for each gathered element run
`should_call_hover` (updating the stored `hovered` state) and, on a
transition, invoke its callbacks with the new boolean.  Returns the final
container and the invocation record: one `(id, new, funcs)` entry per
element whose callbacks were invoked, in invocation order. -/
def hover_invoke : Container → List (Nat × List Nat × Bool) →
    Option (Container × List (Nat × Bool × List Nat))
  | c, [] => some (c, [])
  | c, (re, funcs, b) :: rest =>
    match assoc_get re c.elements with
    | none => none
    | some e =>
      let sc := e.should_call_hover b
      let c1 := set_elem c re sc.2
      match hover_invoke c1 rest with
      | none => none
      | some (c2, tl) =>
        some (c2, (if sc.1 then [(re, b, funcs)] else []) ++ tl)

/-- `Container::hover_at`: gather-then-invoke. -/
def hover_at (c : Container) (x y width height : ℚ) :
    Option (Container × List (Nat × Bool × List Nat)) :=
  let sf := scale_factors c.mode width height
  let mv := pointer_virtual x y width height
  match hover_gather c sf.1 sf.2 mv.1 mv.2 c.elements_list.reverse with
  | none => none
  | some hovers => hover_invoke c hovers

/-- The invocation record of `hover_at` alone. -/
def hover_at_calls (c : Container) (x y width height : ℚ) :
    Option (List (Nat × Bool × List Nat)) :=
  (hover_at c x y width height).map (fun p => p.2)

/-- The per-element under-pointer boolean `hover_at` computes, exposed
directly: the pointer-containment test against the element's resolved
region. -/
def under_pointer (c : Container) (id : Nat) (x y width height : ℚ) :
    Option Bool :=
  let sf := scale_factors c.mode width height
  let mv := pointer_virtual x y width height
  match assoc_get id c.elements with
  | none => none
  | some e =>
    (get_draw_region c (c.elements.length + 1) e sf.1 sf.2).map
      (fun r => region_contains r mv.1 mv.2)

/-- The effective-dirty walk of `Container::collect_elements`:
`let mut dirty = e.is_dirty(); let mut parent = e.get_parent();
while !dirty && parent.is_some() { .. }`.  `fuel` bounds the walk; `none`
models the panic on an absent parent or divergence on a cycle. -/
def effective_dirty (c : Container) : Nat → Bool → Option Nat → Option Bool
  | _, true, _ => some true
  | _, false, none => some false
  | 0, false, some _ => none
  | Nat.succ fuel, false, some p =>
    match assoc_get p c.elements with
    | none => none
    | some pe => effective_dirty c fuel pe.dirty pe.parent

/-- The list of ancestors of a parent pointer, nearest first, following
the chain to the root (`none` on an absent parent or exhausted fuel). -/
def ancestors (c : Container) : Nat → Option Nat → Option (List Element)
  | _, none => some []
  | 0, some _ => none
  | Nat.succ fuel, some p =>
    match assoc_get p c.elements with
    | none => none
    | some pe => (ancestors c fuel pe.parent).map (fun l => pe :: l)

/-- The per-entry body of `Container::collect_elements`, folded over the
keyed store: skip invisible elements, resolve the region, keep only
regions intersecting `SCREEN`, and pair them with the effective-dirty
flag. -/
def collect_go (c : Container) (sw sh : ℚ) :
    List (Nat × Element) → Option (List (Nat × (Region × Bool)))
  | [] => some []
  | (re, e) :: rest =>
    match collect_go c sw sh rest with
    | none => none
    | some tl =>
      if e.should_draw then
        match get_draw_region c (c.elements.length + 1) e sw sh with
        | none => none
        | some r =>
          if r.intersects SCREEN then
            match effective_dirty c c.elements.length e.dirty e.parent with
            | none => none
            | some d => some ((re, (r, d)) :: tl)
          else some tl
      else some tl

/-- `Container::collect_elements`: the map from identity to
(region, effective-dirty) built once per `tick` for every visible
element whose region intersects the screen. -/
def collect_elements (c : Container) (sw sh : ℚ) :
    Option (List (Nat × (Region × Bool))) :=
  collect_go c sw sh c.elements

/-- Reassign every element's `should_draw` flag according to `f`
(used to state that hit testing ignores visibility). -/
def map_should_draw (c : Container) (f : Nat → Bool) : Container :=
  { c with elements := c.elements.map (fun p => (p.1, { p.2 with should_draw := f p.1 })) }

/-- The layout-relevant projection of an element: the fields
`get_draw_region` reads. -/
def layout_view (e : Element) : Option Nat × (ℚ × ℚ) × ℚ × ℚ × VAttach × HAttach :=
  (e.parent, e.size, e.x, e.y, e.v_attach, e.h_attach)

/-- The projection of an element read by the `hover_at` gathering pass:
its layout fields plus its hover-callback list. -/
def hover_view (e : Element) :
    (Option Nat × (ℚ × ℚ) × ℚ × ℚ × VAttach × HAttach) × List Nat :=
  (layout_view e, e.hover_funcs)

/-- Region resolution written from the spec's words (§4.3): `w = size.w *
scale_x`, `h = size.h * scale_y`; `Left → x = offset_x*scale_x`,
`Center → x = super.w/2 − w/2 + offset_x*scale_x`,
`Right → x = super.w − offset_x*scale_x − w`; vertically symmetric; the
result is translated by the super-region's absolute origin. -/
def region_spec (e : Element) (sx sy : ℚ) (sup : Region) : Region :=
  let w := e.size.1 * sx
  let h := e.size.2 * sy
  let rx :=
    match e.h_attach with
    | HAttach.Left => e.x * sx
    | HAttach.Center => sup.w / 2 - w / 2 + e.x * sx
    | HAttach.Right => sup.w - e.x * sx - w
  let ry :=
    match e.v_attach with
    | VAttach.Top => e.y * sy
    | VAttach.Middle => sup.h / 2 - h / 2 + e.y * sy
    | VAttach.Bottom => sup.h - e.y * sy - h
  { x := sup.x + rx, y := sup.y + ry, w := w, h := h }

/-- Inverse scaling from the spec's words: map a resolved scaled-space
region back to pixel space by dividing each coordinate by the scale
factor of its axis. -/
def inverse_scale (r : Region) (sw sh : ℚ) : Region :=
  { x := r.x / sw, y := r.y / sh, w := r.w / sw, h := r.h / sh }

/-! ### Concrete example data -/

/-- The end-to-end scenario element of spec §8: offset (10,10), intrinsic
size (100,40), `Left`/`Top` attachment, no parent. -/
def elemA : Element :=
  { dirty := true
    parent := none
    should_draw := true
    layer := 0
    x := 10
    y := 10
    v_attach := VAttach.Top
    h_attach := HAttach.Left
    click_funcs := []
    hover_funcs := []
    hovered := false
    size := (100, 40) }

/-- A container holding only `elemA` under identity 1, in `Scaled` mode. -/
def contA : Container :=
  { mode := Mode.Scaled, elements := [(1, elemA)], elements_list := [1] }

/-! ### C1 -/

/-- C1, counterexample.  The claim says that in `Scaled` mode with
viewport 1708×960 the element with offset (10,10), size (100,40),
`Left`/`Top` and no parent resolves via `get_draw_region` to
(10,10,100,40).  In fact the scale factors are (1/2, 1/2), so the
resolved region is (5,5,50,20) ≠ (10,10,100,40). -/
theorem claim_C1_counterexample :
    scale_factors Mode.Scaled 1708 960 = (1/2, 1/2) ∧
    get_draw_region contA 1 elemA (1/2) (1/2) =
      some { x := 5, y := 5, w := 50, h := 20 } ∧
    ¬ get_draw_region contA 1 elemA (1/2) (1/2) =
      some { x := 10, y := 10, w := 100, h := 40 } := by
  refine ⟨?_, ?_, ?_⟩
  · simp only [scale_factors, SCALED_WIDTH, SCALED_HEIGHT, Prod.mk.injEq]
    norm_num
  · simp only [get_draw_region, elemA, get_draw_region_raw, Element.get_size, SCREEN,
      SCALED_WIDTH, SCALED_HEIGHT, Option.some.injEq, Region.mk.injEq]
    norm_num
  · simp only [get_draw_region, elemA, get_draw_region_raw, Element.get_size, SCREEN,
      SCALED_WIDTH, SCALED_HEIGHT, Option.some.injEq, Region.mk.injEq]
    norm_num

/-- C1, amended.  In `Scaled` mode with viewport 1708×960 (scale factors
(1/2, 1/2)), the element with offset (10,10), size (100,40), `Left`/`Top`
and no parent resolves via `get_draw_region` to the scaled-space region
(5,5,50,20), which corresponds to the pixel-space region (10,10,100,40)
after inverse scaling. -/
theorem claim_C1_amended :
    scale_factors Mode.Scaled 1708 960 = (1/2, 1/2) ∧
    get_draw_region contA 1 elemA (1/2) (1/2) =
      some { x := 5, y := 5, w := 50, h := 20 } ∧
    inverse_scale { x := 5, y := 5, w := 50, h := 20 } (1/2) (1/2) =
      { x := 10, y := 10, w := 100, h := 40 } := by
  refine ⟨?_, ?_, ?_⟩
  · simp only [scale_factors, SCALED_WIDTH, SCALED_HEIGHT, Prod.mk.injEq]
    norm_num
  · simp only [get_draw_region, elemA, get_draw_region_raw, Element.get_size, SCREEN,
      SCALED_WIDTH, SCALED_HEIGHT, Option.some.injEq, Region.mk.injEq]
    norm_num
  · simp only [inverse_scale, Region.mk.injEq]
    norm_num

/-! ### C2 -/

/-- C2, counterexample.  The claim says `click_at`/`hover_at` convert the
pointer with the same scale factors layout uses, so that in
`Unscaled(factor)` mode the converted coordinate equals `x * factor`.  In
fact the conversion is always `(x/width)*854`: with factor 2, viewport
854×480 and pointer x = 1, layout uses scale factor 2 but the converted
coordinate is 1 ≠ 1 * 2. -/
theorem claim_C2_counterexample :
    scale_factors (Mode.Unscaled 2) 854 480 = (2, 2) ∧
    (pointer_virtual 1 1 854 480).1 = 1 ∧
    (1 : ℚ) ≠ 1 * 2 := by
  refine ⟨rfl, ?_, by norm_num⟩
  simp only [pointer_virtual, SCALED_WIDTH]
  norm_num

/-- C2, amended.  `click_at` and `hover_at` convert the raw pointer
coordinates via `mx = (x/width)*854`, `my = (y/height)*480` independently
of the display mode.  In `Scaled` mode this coincides with multiplying by
the layout scale factors (854/width, 480/height); in `Unscaled(factor)`
mode the conversion does not use the factor. -/
theorem claim_C2_amended : ∀ x y width height : ℚ,
    pointer_virtual x y width height =
      (x / width * SCALED_WIDTH, y / height * SCALED_HEIGHT) ∧
    (pointer_virtual x y width height).1 =
      x * (scale_factors Mode.Scaled width height).1 ∧
    (pointer_virtual x y width height).2 =
      y * (scale_factors Mode.Scaled width height).2 := by
  intro x y width height
  refine ⟨rfl, ?_, ?_⟩
  · simp only [pointer_virtual, scale_factors]
    rw [div_mul_eq_mul_div, mul_div_assoc]
  · simp only [pointer_virtual, scale_factors]
    rw [div_mul_eq_mul_div, mul_div_assoc]

/-! ### C7 -/

/-- C7: each lazy-field setter (`layer`, `x`, `y`, `v_attach`,
`h_attach`) is the identity when the new value equals the current one (in
particular it does not touch the dirty flag), and otherwise updates
exactly that field and sets the dirty flag to true. -/
theorem claim_C7 : ∀ e : Element,
    (∀ v : Int, (e.layer = v → e.set_layer v = e) ∧
      (e.layer ≠ v → e.set_layer v = { e with layer := v, dirty := true })) ∧
    (∀ v : ℚ, (e.x = v → e.set_x v = e) ∧
      (e.x ≠ v → e.set_x v = { e with x := v, dirty := true })) ∧
    (∀ v : ℚ, (e.y = v → e.set_y v = e) ∧
      (e.y ≠ v → e.set_y v = { e with y := v, dirty := true })) ∧
    (∀ v : VAttach, (e.v_attach = v → e.set_v_attach v = e) ∧
      (e.v_attach ≠ v → e.set_v_attach v = { e with v_attach := v, dirty := true })) ∧
    (∀ v : HAttach, (e.h_attach = v → e.set_h_attach v = e) ∧
      (e.h_attach ≠ v → e.set_h_attach v = { e with h_attach := v, dirty := true })) := by
  intro e
  refine ⟨fun v => ⟨fun h => ?_, fun h => ?_⟩, fun v => ⟨fun h => ?_, fun h => ?_⟩,
    fun v => ⟨fun h => ?_, fun h => ?_⟩, fun v => ⟨fun h => ?_, fun h => ?_⟩,
    fun v => ⟨fun h => ?_, fun h => ?_⟩⟩ <;>
    simp [Element.set_layer, Element.set_x, Element.set_y,
      Element.set_v_attach, Element.set_h_attach, h]

/-- C7 witness: on the concrete element `elemA` (layer 0, x 10), setting
`layer` to its current value 0 leaves the element unchanged, and setting
it to 3 updates the field and the dirty flag. -/
theorem claim_C7_witness :
    elemA.set_layer 0 = elemA ∧
    elemA.set_layer 3 = { elemA with layer := 3, dirty := true } ∧
    elemA.set_x 10 = elemA := by
  refine ⟨((claim_C7 elemA).1 0).1 rfl, ((claim_C7 elemA).1 3).2 (by decide), ?_⟩
  exact ((claim_C7 elemA).2.1 10).1 rfl

/-! ### C3 -/

/-- The attachment arithmetic of `get_draw_region_raw` agrees with the
spec's formulas (`region_spec`). -/
theorem raw_eq_region_spec :
    ∀ (e : Element) (sw sh : ℚ) (sup : Region),
      get_draw_region_raw e sw sh sup = region_spec e sw sh sup := by
  intro e sw sh sup
  cases h : e.h_attach <;> cases v : e.v_attach <;>
    simp only [get_draw_region_raw, region_spec, Element.get_size, h, v] <;>
    congr 1 <;> ring

/-- A parent element for the layout-recursion example: offset (100,50),
size (200,100), `Left`/`Top`, no parent, identity 1 in `contB`. -/
def elemP : Element :=
  { dirty := false
    parent := none
    should_draw := true
    layer := 0
    x := 100
    y := 50
    v_attach := VAttach.Top
    h_attach := HAttach.Left
    click_funcs := []
    hover_funcs := []
    hovered := false
    size := (200, 100) }

/-- A child of `elemP` (parent identity 1): offset (10,20), size (30,40). -/
def elemC : Element :=
  { dirty := false
    parent := some 1
    should_draw := true
    layer := 0
    x := 10
    y := 20
    v_attach := VAttach.Top
    h_attach := HAttach.Left
    click_funcs := []
    hover_funcs := []
    hovered := false
    size := (30, 40) }

/-- A container holding `elemP` (id 1) and its child `elemC` (id 2). -/
def contB : Container :=
  { mode := Mode.Scaled
    elements := [(1, elemP), (2, elemC)]
    elements_list := [1, 2] }

/-- C3: `get_draw_region` computes `w = size.w*scale_x`,
`h = size.h*scale_y`, the x/y coordinates according to the horizontal and
vertical attachment formulas, and translates by the super-region's
absolute origin, where the super-region is the parent's recursively
resolved region when a parent is set and the full screen
(0,0,854,480) otherwise. -/
theorem claim_C3 :
    (∀ (e : Element) (sw sh : ℚ) (sup : Region),
      get_draw_region_raw e sw sh sup = region_spec e sw sh sup) ∧
    (∀ (c : Container) (fuel : Nat) (e : Element) (sw sh : ℚ),
      e.parent = none →
      get_draw_region c (fuel + 1) e sw sh = some (region_spec e sw sh SCREEN)) ∧
    (∀ (c : Container) (fuel : Nat) (e pe : Element) (sw sh : ℚ) (p : Nat) (sr : Region),
      e.parent = some p →
      assoc_get p c.elements = some pe →
      get_draw_region c fuel pe sw sh = some sr →
      get_draw_region c (fuel + 1) e sw sh = some (region_spec e sw sh sr)) := by
  refine ⟨raw_eq_region_spec, ?_, ?_⟩
  · intro c fuel e sw sh h
    simp only [get_draw_region, h, raw_eq_region_spec]
  · intro c fuel e pe sw sh p sr h hget hrec
    simp only [get_draw_region, h, hget, hrec, raw_eq_region_spec]

/-- C3 witness: in `contB`, child `elemC` (parent id 1) resolves against
the recursively resolved region of `elemP`, which itself resolves against
the full screen. -/
theorem claim_C3_witness :
    elemC.parent = some 1 ∧
    get_draw_region contB 1 elemP 1 1 = some (region_spec elemP 1 1 SCREEN) ∧
    get_draw_region contB 2 elemC 1 1 =
      some (region_spec elemC 1 1 (region_spec elemP 1 1 SCREEN)) := by
  refine ⟨rfl, claim_C3.2.1 contB 0 elemP 1 1 rfl, ?_⟩
  exact claim_C3.2.2 contB 1 elemC elemP 1 1 1 (region_spec elemP 1 1 SCREEN) rfl rfl
    (claim_C3.2.1 contB 0 elemP 1 1 rfl)

/-! ### Association-list helper lemmas -/

/-- A key that is not among an association list's keys looks up to `none`. -/
theorem assoc_get_none_of_not_mem {α : Type} {l : List (Nat × α)} {r : Nat}
    (h : r ∉ l.map Prod.fst) : assoc_get r l = none := by
  induction l with
  | nil => rfl
  | cons p t ih =>
    simp only [List.map_cons, List.mem_cons] at h
    push_neg at h
    simp only [assoc_get, ih h.2]
    rw [if_neg (fun hc : p.1 = r => h.1 hc.symm)]

/-- Looking up a key yields an entry of the list. -/
theorem mem_of_assoc_get_some {α : Type} {l : List (Nat × α)} {r : Nat} {v : α}
    (h : assoc_get r l = some v) : (r, v) ∈ l := by
  induction l with
  | nil => simp [assoc_get] at h
  | cons p t ih =>
    obtain ⟨k, w⟩ := p
    by_cases hk : k = r
    · simp only [assoc_get, if_pos hk] at h
      injection h with h
      subst hk
      subst h
      exact List.mem_cons_self _ _
    · simp only [assoc_get, if_neg hk] at h
      exact List.mem_cons_of_mem _ (ih h)

/-- Appending a fresh-key entry makes it retrievable. -/
theorem assoc_get_append_fresh {α : Type} {l : List (Nat × α)} {r : Nat} {v : α}
    (h : assoc_get r l = none) : assoc_get r (l ++ [(r, v)]) = some v := by
  induction l with
  | nil => simp [assoc_get]
  | cons p t ih =>
    by_cases hk : p.1 = r
    · simp [assoc_get, if_pos hk] at h
    · simp only [List.cons_append, assoc_get, if_neg hk] at h ⊢
      exact ih h

/-! ### C8 -/

/-- The retry loop of `add` returns a key that is not currently live. -/
theorem fresh_key_not_mem :
    ∀ (rands : List Nat) (c : Container) (r : Nat),
      fresh_key c rands = some r → assoc_get r c.elements = none := by
  intro rands
  induction rands with
  | nil => intro c r h; simp [fresh_key] at h
  | cons a rest ih =>
    intro c r h
    by_cases hs : (assoc_get a c.elements).isSome
    · exact ih c r (by simpa [fresh_key, hs] using h)
    · simp only [fresh_key, hs, if_neg] at h
      simp only [Bool.false_eq_true, if_false, Option.some.injEq] at h
      subst h
      exact Option.not_isSome_iff_eq_none.mp hs

/-- C8: whenever `Container::add` returns, the returned identity was
distinct from every identity live in the container at insertion time (the
collision-retry loop guarantees a fresh key), the element is stored under
it in the keyed store and the identity is appended to the ordered
sequence, and `get` immediately after `add` returns the just-inserted
value unchanged. -/
theorem claim_C8 :
    ∀ (c : Container) (rands : List Nat) (e : Element) (c2 : Container) (r : Nat),
      Container.add c rands e = some (c2, r) →
      assoc_get r c.elements = none ∧
      Container.get c2 r = some e ∧
      c2.elements = c.elements ++ [(r, e)] ∧
      c2.elements_list = c.elements_list ++ [r] := by
  intro c rands e c2 r h
  cases hfk : fresh_key c rands with
  | none => simp [Container.add, hfk] at h
  | some r0 =>
    simp only [Container.add, hfk, Option.some.injEq, Prod.mk.injEq] at h
    obtain ⟨hc2, hr⟩ := h
    subst hr
    have hfresh := fresh_key_not_mem rands c r0 hfk
    subst hc2
    exact ⟨hfresh, assoc_get_append_fresh hfresh, rfl, rfl⟩

/-- The container obtained by adding `elemP` to `contA` with the random
stream [1, 42] (1 collides with the live identity, 42 is fresh). -/
def contAadd : Container :=
  { mode := Mode.Scaled
    elements := [(1, elemA), (42, elemP)]
    elements_list := [1, 42] }

/-- C8 witness: adding `elemP` to `contA` with random stream [1, 42]
(first draw collides with live identity 1) returns fresh identity 42,
which was not live before, and `get` retrieves the inserted value. -/
theorem claim_C8_witness :
    assoc_get 42 contA.elements = none ∧
    Container.get contAadd 42 = some elemP ∧
    contAadd.elements = contA.elements ++ [(42, elemP)] ∧
    contAadd.elements_list = contA.elements_list ++ [42] :=
  claim_C8 contA [1, 42] elemP contAadd 42 rfl

/-! ### C9 -/

/-- `position` on a list not containing the key is `none`. -/
theorem position_eq_none {l : List Nat} {r : Nat} (h : r ∉ l) :
    position l r = none := by
  induction l with
  | nil => rfl
  | cons a t ih =>
    simp only [List.mem_cons] at h
    push_neg at h
    simp only [position, ih h.2]
    rw [if_neg (fun hc : a = r => h.1 hc.symm)]
    rfl

/-- On a duplicate-free list containing the key, `position` finds an
index whose removal eliminates the key. -/
theorem position_mem_eraseIdx {l : List Nat} {r : Nat}
    (hnd : l.Nodup) (hmem : r ∈ l) :
    ∃ i, position l r = some i ∧ r ∉ l.eraseIdx i := by
  induction l with
  | nil => simp at hmem
  | cons a t ih =>
    rw [List.nodup_cons] at hnd
    by_cases ha : a = r
    · refine ⟨0, by simp [position, ha], ?_⟩
      subst ha
      simpa using hnd.1
    · have hmt : r ∈ t := by
        rcases List.mem_cons.mp hmem with h | h
        · exact absurd h.symm ha
        · exact h
      obtain ⟨i, hp, hni⟩ := ih hnd.2 hmt
      refine ⟨i + 1, by simp [position, if_neg ha, hp], ?_⟩
      rw [List.eraseIdx_cons_succ, List.mem_cons]
      rintro (hc | hc)
      · exact ha hc.symm
      · exact hni hc

/-- Erasing a key from a duplicate-free association list (as
`HashMap::remove` does) makes it look up to `none`. -/
theorem assoc_get_eraseP_none {α : Type} {l : List (Nat × α)} {r : Nat}
    (hnd : (l.map Prod.fst).Nodup) :
    assoc_get r (l.eraseP (fun p => p.1 == r)) = none := by
  induction l with
  | nil => rfl
  | cons p t ih =>
    simp only [List.map_cons, List.nodup_cons] at hnd
    by_cases hk : p.1 = r
    · rw [List.eraseP_cons_of_pos (by simp [hk])]
      exact assoc_get_none_of_not_mem (hk ▸ hnd.1)
    · rw [List.eraseP_cons_of_neg (by simp [hk])]
      simp only [assoc_get, if_neg hk]
      exact ih hnd.2

/-- C9: removing an identity present in the container deletes it from
both the keyed store and the ordered sequence, after which `get` and a
second `remove_raw` on it fail (`none`, the model of the source's
`unwrap` panic); `remove_raw` on an identity missing from the ordered
sequence, and `get` on an identity missing from the store, fail the same
way rather than silently no-opping. -/
theorem claim_C9 :
    ∀ (c : Container) (r : Nat),
      (c.elements.map Prod.fst).Nodup →
      c.elements_list.Nodup →
      ((∀ e : Element, assoc_get r c.elements = some e → r ∈ c.elements_list →
          ∃ c2, remove_raw c r = some c2 ∧
            assoc_get r c2.elements = none ∧
            r ∉ c2.elements_list ∧
            Container.get c2 r = none ∧
            remove_raw c2 r = none) ∧
        (r ∉ c.elements_list → remove_raw c r = none) ∧
        (assoc_get r c.elements = none → Container.get c r = none)) := by
  intro c r hkeys hlist
  refine ⟨?_, ?_, ?_⟩
  · intro e _ hmem
    obtain ⟨i, hp, hni⟩ := position_mem_eraseIdx hlist hmem
    refine ⟨{ c with
               elements := c.elements.eraseP (fun p => p.1 == r)
               elements_list := c.elements_list.eraseIdx i }, ?_, ?_, hni, ?_, ?_⟩
    · simp only [remove_raw, hp]
    · exact assoc_get_eraseP_none hkeys
    · exact assoc_get_eraseP_none hkeys
    · simp only [remove_raw, position_eq_none hni]
  · intro hni
    simp only [remove_raw, position_eq_none hni]
  · intro h
    exact h

/-- C9 witness: removing identity 2 from `contB` deletes it from both
structures and subsequent `get`/`remove_raw` on 2 fail. -/
theorem claim_C9_witness :
    ∃ c2, remove_raw contB 2 = some c2 ∧
      assoc_get 2 c2.elements = none ∧
      2 ∉ c2.elements_list ∧
      Container.get c2 2 = none ∧
      remove_raw c2 2 = none :=
  (claim_C9 contB 2 (by simp [contB]) (by simp [contB])).1 elemC rfl (by simp [contB])


/-! ### C6 -/

/-- The effective-dirty walk computes the OR of the element's own dirty
flag with the dirty flags of its resolvable ancestor chain. -/
theorem effective_dirty_eq_ancestors (c : Container) :
    ∀ (fuel : Nat) (d : Bool) (par : Option Nat) (ancs : List Element),
      ancestors c fuel par = some ancs →
      effective_dirty c fuel d par = some (d || ancs.any (fun a => a.dirty)) := by
  intro fuel
  induction fuel with
  | zero =>
    intro d par ancs h
    cases par with
    | none =>
      simp only [ancestors, Option.some.injEq] at h
      cases d <;> simp [effective_dirty, ← h]
    | some p => simp [ancestors] at h
  | succ f ih =>
    intro d par ancs h
    cases d with
    | true => simp [effective_dirty]
    | false =>
      cases par with
      | none =>
        simp only [ancestors, Option.some.injEq] at h
        simp [effective_dirty, ← h]
      | some p =>
        cases hget : assoc_get p c.elements with
        | none => simp [ancestors, hget] at h
        | some pe =>
          simp only [ancestors, hget, Option.map_eq_some'] at h
          obtain ⟨ancs2, hrec, hcons⟩ := h
          simp only [effective_dirty, hget, ih pe.dirty pe.parent ancs2 hrec,
            ← hcons, List.any_cons, Bool.false_or]

/-- An entry of the keyed store that is visible, on screen and has a
computable effective-dirty flag appears in the `collect_elements` result
with exactly that region and flag. -/
theorem collect_go_mem (c : Container) (sw sh : ℚ) :
    ∀ (l : List (Nat × Element)) (m : List (Nat × (Region × Bool)))
      (id : Nat) (e : Element) (r : Region) (d : Bool),
      (l.map Prod.fst).Nodup → (id, e) ∈ l →
      e.should_draw = true →
      get_draw_region c (c.elements.length + 1) e sw sh = some r →
      r.intersects SCREEN = true →
      effective_dirty c c.elements.length e.dirty e.parent = some d →
      collect_go c sw sh l = some m →
      assoc_get id m = some (r, d) := by
  intro l
  induction l with
  | nil => intro m id e r d _ hmem; simp at hmem
  | cons p t ih =>
    intro m id e r d hnd hmem hsd hgr hint hed hm
    obtain ⟨k, v⟩ := p
    simp only [List.map_cons, List.nodup_cons] at hnd
    cases ht : collect_go c sw sh t with
    | none => simp [collect_go, ht] at hm
    | some tl =>
      simp only [collect_go, ht] at hm
      rcases List.mem_cons.mp hmem with hhd | htl
      · injection hhd with hk hv
        subst hk
        subst hv
        simp only [hsd, hgr, hint, hed, if_true, Option.some.injEq] at hm
        subst hm
        simp [assoc_get]
      · have hk : k ≠ id := by
          intro hc
          subst hc
          exact hnd.1 (List.mem_map_of_mem Prod.fst htl)
        have hrest : assoc_get id tl = some (r, d) :=
          ih tl id e r d hnd.2 htl hsd hgr hint hed ht
        by_cases hv : v.should_draw = true
        · cases hgrv : get_draw_region c (c.elements.length + 1) v sw sh with
          | none => simp [hv, hgrv] at hm
          | some rv =>
            by_cases hintv : rv.intersects SCREEN = true
            · cases hedv : effective_dirty c c.elements.length v.dirty v.parent with
              | none => simp [hv, hgrv, hintv, hedv] at hm
              | some dv =>
                simp only [hv, hgrv, hintv, hedv, if_true, Option.some.injEq] at hm
                subst hm
                simp only [assoc_get, if_neg hk]
                exact hrest
            · rw [Bool.not_eq_true] at hintv
              simp only [hv, hgrv, hintv, if_true, Bool.false_eq_true, if_false,
                Option.some.injEq] at hm
              subst hm
              exact hrest
        · simp only [Bool.not_eq_true] at hv
          rw [hv] at hm
          simp only [Bool.false_eq_true, if_false, Option.some.injEq] at hm
          subst hm
          exact hrest

/-- C6: during a tick, the effective-dirty value recorded by
`collect_elements` for a visible on-screen element equals its own dirty
flag OR-ed with the dirty flags along its parent chain; in particular a
clean child of a dirty parent is effectively dirty, and a clean child of
a clean chain is not. -/
theorem claim_C6 :
    ∀ (c : Container) (sw sh : ℚ) (id : Nat) (e : Element) (r : Region)
      (ancs : List Element) (m : List (Nat × (Region × Bool))),
      (c.elements.map Prod.fst).Nodup →
      assoc_get id c.elements = some e →
      e.should_draw = true →
      get_draw_region c (c.elements.length + 1) e sw sh = some r →
      r.intersects SCREEN = true →
      ancestors c c.elements.length e.parent = some ancs →
      collect_elements c sw sh = some m →
      assoc_get id m = some (r, e.dirty || ancs.any (fun a => a.dirty)) := by
  intro c sw sh id e r ancs m hnd hget hsd hgr hint hanc hm
  exact collect_go_mem c sw sh c.elements m id e r
    (e.dirty || ancs.any (fun a => a.dirty)) hnd (mem_of_assoc_get_some hget) hsd hgr hint
    (effective_dirty_eq_ancestors c c.elements.length e.dirty e.parent ancs hanc) hm

/-- `elemP` with its dirty flag set: a dirty parent. -/
def elemPD : Element := { elemP with dirty := true }

/-- Like `contB` but with the parent (id 1) marked dirty and the child
(id 2) clean. -/
def contD : Container :=
  { mode := Mode.Scaled
    elements := [(1, elemPD), (2, elemC)]
    elements_list := [1, 2] }

/-- C6 witness: in `contD` (dirty parent, clean child) the effective
dirty flag collected for the clean child (id 2) is `true`; in `contB`
(both clean) it is `false`. -/
theorem claim_C6_witness :
    assoc_get 2 [(1, (({ x := 100, y := 50, w := 200, h := 100 } : Region), true)),
                 (2, (({ x := 110, y := 70, w := 30, h := 40 } : Region), true))] =
      some (({ x := 110, y := 70, w := 30, h := 40 } : Region), true) ∧
    assoc_get 2 [(1, (({ x := 100, y := 50, w := 200, h := 100 } : Region), false)),
                 (2, (({ x := 110, y := 70, w := 30, h := 40 } : Region), false))] =
      some (({ x := 110, y := 70, w := 30, h := 40 } : Region), false) := by
  constructor
  · exact claim_C6 contD 1 1 2 elemC { x := 110, y := 70, w := 30, h := 40 } [elemPD]
      [(1, ({ x := 100, y := 50, w := 200, h := 100 }, true)),
       (2, ({ x := 110, y := 70, w := 30, h := 40 }, true))]
      (by decide) rfl rfl
      (by simp [get_draw_region, contD, elemC, elemPD, elemP, assoc_get,
            get_draw_region_raw, Element.get_size, SCREEN, SCALED_WIDTH, SCALED_HEIGHT]
          norm_num)
      (by norm_num [Region.intersects, SCREEN, SCALED_WIDTH, SCALED_HEIGHT]) rfl
      (by simp [collect_elements, collect_go, contD, elemC, elemPD, elemP, assoc_get,
            get_draw_region, get_draw_region_raw, Element.get_size, SCREEN,
            Region.intersects, effective_dirty, SCALED_WIDTH, SCALED_HEIGHT]
          norm_num)
  · exact claim_C6 contB 1 1 2 elemC { x := 110, y := 70, w := 30, h := 40 } [elemP]
      [(1, ({ x := 100, y := 50, w := 200, h := 100 }, false)),
       (2, ({ x := 110, y := 70, w := 30, h := 40 }, false))]
      (by decide) rfl rfl
      (by simp [get_draw_region, contB, elemC, elemP, assoc_get,
            get_draw_region_raw, Element.get_size, SCREEN, SCALED_WIDTH, SCALED_HEIGHT]
          norm_num)
      (by norm_num [Region.intersects, SCREEN, SCALED_WIDTH, SCALED_HEIGHT]) rfl
      (by simp [collect_elements, collect_go, contB, elemC, elemP, assoc_get,
            get_draw_region, get_draw_region_raw, Element.get_size, SCREEN,
            Region.intersects, effective_dirty, SCALED_WIDTH, SCALED_HEIGHT]
          norm_num)

/-! ### C4 -/

/-- Elements that either have no click callbacks or whose region does not
contain the pointer are passed over by the `click_at` scan. -/
theorem click_scan_skip (c : Container) (sw sh mx my : ℚ) :
    ∀ (pre rest : List Nat),
      (∀ a ∈ pre, ∃ ea, assoc_get a c.elements = some ea ∧
        (ea.click_funcs = [] ∨
          ∃ ra, get_draw_region c (c.elements.length + 1) ea sw sh = some ra ∧
            region_contains ra mx my = false)) →
      click_scan c sw sh mx my (pre ++ rest) = click_scan c sw sh mx my rest := by
  intro pre
  induction pre with
  | nil => intro rest _; rfl
  | cons a t ih =>
    intro rest hpre
    obtain ⟨ea, hget, hskip⟩ := hpre a (List.mem_cons_self a t)
    have htail := fun b hb => hpre b (List.mem_cons_of_mem a hb)
    by_cases hemp : ea.click_funcs.isEmpty
    · simp only [List.cons_append, click_scan, hget, hemp, if_true]
      exact ih rest htail
    · rcases hskip with hnil | ⟨ra, hra, hcont⟩
      · exact absurd (by rw [hnil]; rfl) hemp
      · simp only [List.cons_append, click_scan, hget, hemp, if_false, hra, hcont,
          Bool.false_eq_true]
        exact ih rest htail

/-- The `click_at` scan stops at the first element with callbacks whose
region contains the pointer and returns its callback list. -/
theorem click_scan_hit (c : Container) (sw sh mx my : ℚ)
    (b : Nat) (post : List Nat) (eb : Element) (rb : Region)
    (hget : assoc_get b c.elements = some eb)
    (hfuncs : eb.click_funcs ≠ [])
    (hgr : get_draw_region c (c.elements.length + 1) eb sw sh = some rb)
    (hcont : region_contains rb mx my = true) :
    click_scan c sw sh mx my (b :: post) = some (some eb.click_funcs) := by
  have hemp : eb.click_funcs.isEmpty = false := by
    cases hfe : eb.click_funcs with
    | nil => exact absurd hfe hfuncs
    | cons u v => rfl
  simp only [click_scan, hget, hemp, Bool.false_eq_true, if_false, hgr, hcont, if_true]

/-- C4: when the reverse-insertion-order scan reaches an element with a
non-empty click-callback list whose resolved region contains the
converted pointer, and every later-inserted element was passed over
(empty callbacks or pointer outside its region), `click_at` invokes
exactly that element's click callbacks, in registration order, and no
others. -/
theorem claim_C4 :
    ∀ (c : Container) (x y width height sw sh mx my : ℚ)
      (pre post : List Nat) (b : Nat) (eb : Element) (rb : Region),
      scale_factors c.mode width height = (sw, sh) →
      pointer_virtual x y width height = (mx, my) →
      c.elements_list.reverse = pre ++ b :: post →
      (∀ a ∈ pre, ∃ ea, assoc_get a c.elements = some ea ∧
        (ea.click_funcs = [] ∨
          ∃ ra, get_draw_region c (c.elements.length + 1) ea sw sh = some ra ∧
            region_contains ra mx my = false)) →
      assoc_get b c.elements = some eb →
      eb.click_funcs ≠ [] →
      get_draw_region c (c.elements.length + 1) eb sw sh = some rb →
      region_contains rb mx my = true →
      click_at c x y width height = some eb.click_funcs := by
  intro c x y width height sw sh mx my pre post b eb rb hsf hmv hrev hpre hget hfuncs hgr hcont
  have hskip := click_scan_skip c sw sh mx my pre (b :: post) hpre
  have hhit := click_scan_hit c sw sh mx my b post eb rb hget hfuncs hgr hcont
  simp only [click_at, hsf, hmv, hrev, hskip, hhit]

/-- An element with click callbacks [1, 2] at (0,0) with size (10,10). -/
def elemX : Element :=
  { dirty := false
    parent := none
    should_draw := true
    layer := 0
    x := 0
    y := 0
    v_attach := VAttach.Top
    h_attach := HAttach.Left
    click_funcs := [1, 2]
    hover_funcs := []
    hovered := false
    size := (10, 10) }

/-- An element overlapping `elemX` with click callbacks [3, 4]. -/
def elemY : Element :=
  { dirty := false
    parent := none
    should_draw := true
    layer := 0
    x := 0
    y := 0
    v_attach := VAttach.Top
    h_attach := HAttach.Left
    click_funcs := [3, 4]
    hover_funcs := []
    hovered := false
    size := (10, 10) }

/-- A container with the two overlapping clickable elements: `elemX`
inserted first (id 10), `elemY` inserted later (id 20), fixed scale 1. -/
def contC4 : Container :=
  { mode := Mode.Unscaled 1
    elements := [(10, elemX), (20, elemY)]
    elements_list := [10, 20] }

/-- C4 witness: the pointer at (5,5) lies inside both overlapping
elements of `contC4`; `click_at` invokes only the callbacks [3, 4] of the
later-inserted `elemY`, in registration order. -/
theorem claim_C4_witness :
    click_at contC4 5 5 854 480 = some [3, 4] :=
  claim_C4 contC4 5 5 854 480 1 1 5 5 [] [10] 20 elemY
    { x := 0, y := 0, w := 10, h := 10 }
    rfl
    (by simp only [pointer_virtual, SCALED_WIDTH, SCALED_HEIGHT, Prod.mk.injEq]
        norm_num)
    rfl
    (by simp)
    rfl
    (by simp [elemY])
    (by simp [get_draw_region, contC4, elemY, get_draw_region_raw, Element.get_size, SCREEN])
    (by norm_num [region_contains])

/-! ### Congruence machinery: hit testing reads only layout fields -/

/-- `assoc_get` over a key-preserving value map. -/
theorem assoc_get_map_val {α β : Type} (f : Nat → α → β) :
    ∀ (l : List (Nat × α)) (id : Nat),
      assoc_get id (l.map (fun p => (p.1, f p.1 p.2))) = (assoc_get id l).map (f id) := by
  intro l id
  induction l with
  | nil => rfl
  | cons p t ih =>
    by_cases hk : p.1 = id
    · simp [assoc_get, hk]
    · simp [assoc_get, hk, ih]

/-- `assoc_get` on the container produced by `set_elem`. -/
theorem assoc_get_set_elem (c : Container) (i : Nat) (e : Element) (j : Nat) :
    assoc_get j (set_elem c i e).elements =
      (assoc_get j c.elements).map (fun v => if j = i then e else v) := by
  show assoc_get j (c.elements.map _) = _
  rw [assoc_get_map_val (fun k v => if k = i then e else v)]

/-- `set_elem` leaves elements stored under other keys untouched. -/
theorem assoc_get_set_elem_ne (c : Container) (i : Nat) (e : Element) (j : Nat)
    (h : j ≠ i) :
    assoc_get j (set_elem c i e).elements = assoc_get j c.elements := by
  rw [assoc_get_set_elem]
  cases assoc_get j c.elements <;> simp [h]

/-- `set_elem` replaces the element stored under its key. -/
theorem assoc_get_set_elem_self (c : Container) (i : Nat) (e : Element) :
    assoc_get i (set_elem c i e).elements =
      (assoc_get i c.elements).map (fun _ => e) := by
  rw [assoc_get_set_elem]
  cases assoc_get i c.elements <;> simp

/-- `get_draw_region_raw` reads only the layout fields. -/
theorem get_draw_region_raw_congr {e1 e2 : Element}
    (h : layout_view e2 = layout_view e1) :
    ∀ (sw sh : ℚ) (sup : Region),
      get_draw_region_raw e2 sw sh sup = get_draw_region_raw e1 sw sh sup := by
  intro sw sh sup
  simp only [layout_view, Prod.mk.injEq] at h
  obtain ⟨hp, hs, hx, hy, hv, hh⟩ := h
  simp only [get_draw_region_raw, Element.get_size, hs, hx, hy, hv, hh]

/-- `get_draw_region` depends only on the layout views of the element and
of the keyed store. -/
theorem get_draw_region_congr {c1 c2 : Container}
    (hmap : ∀ j, (assoc_get j c2.elements).map layout_view =
      (assoc_get j c1.elements).map layout_view) (sw sh : ℚ) :
    ∀ (fuel : Nat) (e1 e2 : Element), layout_view e2 = layout_view e1 →
      get_draw_region c2 fuel e2 sw sh = get_draw_region c1 fuel e1 sw sh := by
  intro fuel
  induction fuel with
  | zero => intro e1 e2 _; rfl
  | succ f ih =>
    intro e1 e2 hview
    have hp : e2.parent = e1.parent := by
      simpa [layout_view, Prod.mk.injEq] using congrArg Prod.fst hview
    cases hpar : e1.parent with
    | none =>
      simp only [get_draw_region, hp, hpar, get_draw_region_raw_congr hview]
    | some p =>
      cases h1 : assoc_get p c1.elements with
      | none =>
        have h2 : assoc_get p c2.elements = none := by
          have := hmap p
          rw [h1] at this
          exact Option.map_eq_none'.mp this
        simp only [get_draw_region, hp, hpar, h1, h2]
      | some pe1 =>
        have h2 : ∃ pe2, assoc_get p c2.elements = some pe2 ∧
            layout_view pe2 = layout_view pe1 := by
          have := hmap p
          rw [h1] at this
          exact Option.map_eq_some'.mp this
        obtain ⟨pe2, h2get, h2view⟩ := h2
        have hrec := ih pe1 pe2 h2view
        simp only [get_draw_region, hp, hpar, h1, h2get, hrec]
        cases get_draw_region c1 f pe1 sw sh with
        | none => rfl
        | some sr => simp only [get_draw_region_raw_congr hview]

/-- The layout view of the `map_should_draw` image of a store equals the
layout view of the original store. -/
theorem assoc_get_map_should_draw (c : Container) (f : Nat → Bool) (j : Nat) :
    assoc_get j (map_should_draw c f).elements =
      (assoc_get j c.elements).map (fun e => { e with should_draw := f j }) := by
  show assoc_get j (c.elements.map _) = _
  induction c.elements with
  | nil => rfl
  | cons p t ih =>
    by_cases hk : p.1 = j
    · simp [assoc_get, hk]
    · simp [assoc_get, hk, ih]

/-- The layout view of the `map_should_draw` image of a store equals the
layout view of the original store. -/
theorem map_should_draw_layout_view (c : Container) (f : Nat → Bool) :
    ∀ j, (assoc_get j (map_should_draw c f).elements).map layout_view =
      (assoc_get j c.elements).map layout_view := by
  intro j
  rw [assoc_get_map_should_draw]
  cases assoc_get j c.elements <;> rfl

/-! ### C10 -/

/-- `map_should_draw` does not change the display mode. -/
theorem map_should_draw_mode (c : Container) (f : Nat → Bool) :
    (map_should_draw c f).mode = c.mode := rfl

/-- `map_should_draw` does not change the ordered identity sequence. -/
theorem map_should_draw_elements_list (c : Container) (f : Nat → Bool) :
    (map_should_draw c f).elements_list = c.elements_list := rfl

/-- The `click_at` scan is unchanged by arbitrary reassignment of the
`should_draw` flags: hit testing never reads visibility. -/
theorem click_scan_map_should_draw (c : Container) (f : Nat → Bool) (sw sh mx my : ℚ) :
    ∀ ids, click_scan (map_should_draw c f) sw sh mx my ids =
      click_scan c sw sh mx my ids := by
  intro ids
  induction ids with
  | nil => rfl
  | cons a t ih =>
    cases hget : assoc_get a c.elements with
    | none =>
      have h2 : assoc_get a (map_should_draw c f).elements = none := by
        rw [assoc_get_map_should_draw, hget]; rfl
      simp only [click_scan, hget, h2]
    | some e =>
      have h2 : assoc_get a (map_should_draw c f).elements =
          some { e with should_draw := f a } := by
        rw [assoc_get_map_should_draw, hget]; rfl
      have hlen : (map_should_draw c f).elements.length = c.elements.length :=
        List.length_map _ _
      have hgr : get_draw_region (map_should_draw c f)
          ((map_should_draw c f).elements.length + 1) { e with should_draw := f a } sw sh =
          get_draw_region c (c.elements.length + 1) e sw sh := by
        rw [hlen]
        exact get_draw_region_congr (map_should_draw_layout_view c f) sw sh _ e
          { e with should_draw := f a } rfl
      simp only [click_scan, hget, h2, hgr, ih]

/-- `click_at` ignores `should_draw` entirely. -/
theorem click_at_map_should_draw (c : Container) (f : Nat → Bool) (x y width height : ℚ) :
    click_at (map_should_draw c f) x y width height = click_at c x y width height := by
  simp only [click_at, click_scan_map_should_draw, map_should_draw_mode,
    map_should_draw_elements_list]

/-- The `hover_at` gathering pass is unchanged by arbitrary reassignment
of the `should_draw` flags. -/
theorem hover_gather_map_should_draw (c : Container) (f : Nat → Bool) (sw sh mx my : ℚ) :
    ∀ ids, hover_gather (map_should_draw c f) sw sh mx my ids =
      hover_gather c sw sh mx my ids := by
  intro ids
  induction ids with
  | nil => rfl
  | cons a t ih =>
    cases hget : assoc_get a c.elements with
    | none =>
      have h2 : assoc_get a (map_should_draw c f).elements = none := by
        rw [assoc_get_map_should_draw, hget]; rfl
      simp only [hover_gather, hget, h2]
    | some e =>
      have h2 : assoc_get a (map_should_draw c f).elements =
          some { e with should_draw := f a } := by
        rw [assoc_get_map_should_draw, hget]; rfl
      have hlen : (map_should_draw c f).elements.length = c.elements.length :=
        List.length_map _ _
      have hgr : get_draw_region (map_should_draw c f)
          ((map_should_draw c f).elements.length + 1) { e with should_draw := f a } sw sh =
          get_draw_region c (c.elements.length + 1) e sw sh := by
        rw [hlen]
        exact get_draw_region_congr (map_should_draw_layout_view c f) sw sh _ e
          { e with should_draw := f a } rfl
      simp only [hover_gather, hget, h2, hgr, ih]

/-- Updating an element's hover state commutes with the `should_draw`
reassignment. -/
theorem set_elem_map_should_draw (c : Container) (f : Nat → Bool) (re : Nat)
    (e : Element) (b : Bool) :
    set_elem (map_should_draw c f) re { e with should_draw := f re, hovered := b } =
      map_should_draw (set_elem c re { e with hovered := b }) f := by
  simp only [set_elem, map_should_draw, List.map_map]
  congr 1
  apply List.map_congr_left
  intro p _
  by_cases hpk : p.1 = re <;> simp [Function.comp, hpk]

/-- The `hover_at` invocation pass over a `should_draw`-reassigned
container produces the same invocation record (and the reassigned final
container). -/
theorem hover_invoke_map_should_draw (f : Nat → Bool) :
    ∀ (l : List (Nat × List Nat × Bool)) (c : Container),
      hover_invoke (map_should_draw c f) l =
        (hover_invoke c l).map (fun p => (map_should_draw p.1 f, p.2)) := by
  intro l
  induction l with
  | nil => intro c; rfl
  | cons hd t ih =>
    intro c
    obtain ⟨re, funcs, b⟩ := hd
    cases hget : assoc_get re c.elements with
    | none =>
      have h2 : assoc_get re (map_should_draw c f).elements = none := by
        rw [assoc_get_map_should_draw, hget]; rfl
      simp only [hover_invoke, hget, h2]
      rfl
    | some e =>
      have h2 : assoc_get re (map_should_draw c f).elements =
          some { e with should_draw := f re } := by
        rw [assoc_get_map_should_draw, hget]; rfl
      have hcomm := set_elem_map_should_draw c f re e b
      simp only [hover_invoke, hget, h2, Element.should_call_hover, hcomm, ih]
      cases hover_invoke (set_elem c re { e with hovered := b }) t with
      | none => rfl
      | some p => rfl

/-- The `hover_at` invocation record ignores `should_draw` entirely. -/
theorem hover_at_calls_map_should_draw (c : Container) (f : Nat → Bool)
    (x y width height : ℚ) :
    hover_at_calls (map_should_draw c f) x y width height =
      hover_at_calls c x y width height := by
  simp only [hover_at_calls, hover_at, hover_gather_map_should_draw,
    hover_invoke_map_should_draw, map_should_draw_mode, map_should_draw_elements_list]
  cases hover_gather c (scale_factors c.mode width height).1
      (scale_factors c.mode width height).2 (pointer_virtual x y width height).1
      (pointer_virtual x y width height).2 c.elements_list.reverse with
  | none => rfl
  | some l =>
    show Option.map (fun p => p.2)
        (Option.map (fun p => (map_should_draw p.1 f, p.2)) (hover_invoke c l)) =
      Option.map (fun p => p.2) (hover_invoke c l)
    cases hover_invoke c l with
    | none => rfl
    | some p => rfl

/-- Keys absent from the processed store are absent from the
`collect_elements` output. -/
theorem collect_go_none_of_not_mem (c : Container) (sw sh : ℚ) (id : Nat) :
    ∀ (t : List (Nat × Element)) (tl : List (Nat × (Region × Bool))),
      collect_go c sw sh t = some tl → id ∉ t.map Prod.fst →
      assoc_get id tl = none := by
  intro t
  induction t with
  | nil =>
    intro tl ht _
    simp only [collect_go, Option.some.injEq] at ht
    rw [← ht]
    rfl
  | cons p u ih =>
    intro tl ht hmem
    obtain ⟨k, v⟩ := p
    simp only [List.map_cons, List.mem_cons] at hmem
    push_neg at hmem
    cases hu : collect_go c sw sh u with
    | none => simp [collect_go, hu] at ht
    | some ul =>
      have hul := ih ul hu hmem.2
      simp only [collect_go, hu] at ht
      by_cases hv : v.should_draw = true
      · cases hgrv : get_draw_region c (c.elements.length + 1) v sw sh with
        | none => simp [hv, hgrv] at ht
        | some rv =>
          by_cases hintv : rv.intersects SCREEN = true
          · cases hedv : effective_dirty c c.elements.length v.dirty v.parent with
            | none => simp [hv, hgrv, hintv, hedv] at ht
            | some dv =>
              simp only [hv, hgrv, hintv, hedv, if_true, Option.some.injEq] at ht
              rw [← ht]
              simp only [assoc_get]
              rw [if_neg (fun hc : k = id => hmem.1 hc.symm)]
              exact hul
          · rw [Bool.not_eq_true] at hintv
            simp only [hv, hgrv, hintv, if_true, Bool.false_eq_true, if_false,
              Option.some.injEq] at ht
            rw [← ht]
            exact hul
      · rw [Bool.not_eq_true] at hv
        rw [hv] at ht
        simp only [Bool.false_eq_true, if_false, Option.some.injEq] at ht
        rw [← ht]
        exact hul

/-- An invisible or off-screen entry of the keyed store is excluded from
the `collect_elements` output. -/
theorem collect_go_skip (c : Container) (sw sh : ℚ) :
    ∀ (l : List (Nat × Element)) (m : List (Nat × (Region × Bool)))
      (id : Nat) (e : Element),
      (l.map Prod.fst).Nodup → (id, e) ∈ l →
      (e.should_draw = false ∨
        ∃ r, get_draw_region c (c.elements.length + 1) e sw sh = some r ∧
          r.intersects SCREEN = false) →
      collect_go c sw sh l = some m → assoc_get id m = none := by
  intro l
  induction l with
  | nil => intro m id e _ hmem; simp at hmem
  | cons p t ih =>
    intro m id e hnd hmem hcond hm
    obtain ⟨k, v⟩ := p
    simp only [List.map_cons, List.nodup_cons] at hnd
    cases ht : collect_go c sw sh t with
    | none => simp [collect_go, ht] at hm
    | some tl =>
      simp only [collect_go, ht] at hm
      rcases List.mem_cons.mp hmem with hhd | htl
      · injection hhd with hk hv2
        subst hk
        subst hv2
        have htlnone : assoc_get id tl = none :=
          collect_go_none_of_not_mem c sw sh id t tl ht hnd.1
        rcases hcond with hsd | ⟨r, hgr, hint⟩
        · rw [hsd] at hm
          simp only [Bool.false_eq_true, if_false, Option.some.injEq] at hm
          rw [← hm]
          exact htlnone
        · by_cases hsd : e.should_draw = true
          · simp only [hsd, hgr, hint, if_true, Bool.false_eq_true, if_false,
              Option.some.injEq] at hm
            rw [← hm]
            exact htlnone
          · rw [Bool.not_eq_true] at hsd
            rw [hsd] at hm
            simp only [Bool.false_eq_true, if_false, Option.some.injEq] at hm
            rw [← hm]
            exact htlnone
      · have hk : k ≠ id := by
          intro hc
          subst hc
          exact hnd.1 (List.mem_map_of_mem Prod.fst htl)
        have hrest : assoc_get id tl = none := ih tl id e hnd.2 htl hcond ht
        by_cases hv : v.should_draw = true
        · cases hgrv : get_draw_region c (c.elements.length + 1) v sw sh with
          | none => simp [hv, hgrv] at hm
          | some rv =>
            by_cases hintv : rv.intersects SCREEN = true
            · cases hedv : effective_dirty c c.elements.length v.dirty v.parent with
              | none => simp [hv, hgrv, hintv, hedv] at hm
              | some dv =>
                simp only [hv, hgrv, hintv, hedv, if_true, Option.some.injEq] at hm
                rw [← hm]
                simp only [assoc_get, if_neg hk]
                exact hrest
            · rw [Bool.not_eq_true] at hintv
              simp only [hv, hgrv, hintv, if_true, Bool.false_eq_true, if_false,
                Option.some.injEq] at hm
              rw [← hm]
              exact hrest
        · rw [Bool.not_eq_true] at hv
          rw [hv] at hm
          simp only [Bool.false_eq_true, if_false, Option.some.injEq] at hm
          rw [← hm]
          exact hrest


/-! ### C5 -/

/-- Every scanned element with a non-empty hover-callback list and a
resolvable region contributes its under-pointer boolean to the gathered
list. -/
theorem hover_gather_mem (c : Container) (sw sh mx my : ℚ) :
    ∀ (ids : List Nat) (l : List (Nat × List Nat × Bool)) (id : Nat) (e : Element),
      hover_gather c sw sh mx my ids = some l →
      id ∈ ids → assoc_get id c.elements = some e → e.hover_funcs ≠ [] →
      ∃ r, get_draw_region c (c.elements.length + 1) e sw sh = some r ∧
        (id, e.hover_funcs, region_contains r mx my) ∈ l := by
  intro ids
  induction ids with
  | nil => intro l id e _ hmem; simp at hmem
  | cons a t ih =>
    intro l id e hl hmem hget hfuncs
    cases hgeta : assoc_get a c.elements with
    | none => simp [hover_gather, hgeta] at hl
    | some ea =>
      by_cases hemp : ea.hover_funcs.isEmpty = true
      · simp only [hover_gather, hgeta, hemp, if_true] at hl
        rcases List.mem_cons.mp hmem with rfl | hmt
        · rw [hget] at hgeta
          injection hgeta with hea
          rw [← hea] at hemp
          exact absurd (List.isEmpty_iff.mp hemp) hfuncs
        · exact ih l id e hl hmt hget hfuncs
      · rw [Bool.not_eq_true] at hemp
        cases hgra : get_draw_region c (c.elements.length + 1) ea sw sh with
        | none => simp [hover_gather, hgeta, hemp, hgra] at hl
        | some ra =>
          cases hrest : hover_gather c sw sh mx my t with
          | none => simp [hover_gather, hgeta, hemp, hgra, hrest] at hl
          | some tl =>
            simp only [hover_gather, hgeta, hemp, Bool.false_eq_true, if_false,
              hgra, hrest, Option.some.injEq] at hl
            rcases List.mem_cons.mp hmem with rfl | hmt
            · rw [hget] at hgeta
              injection hgeta with hea
              subst hea
              refine ⟨ra, hgra, ?_⟩
              rw [← hl]
              exact List.mem_cons_self _ _
            · obtain ⟨r, hr, hmemtl⟩ := ih tl id e hrest hmt hget hfuncs
              refine ⟨r, hr, ?_⟩
              rw [← hl]
              exact List.mem_cons_of_mem _ hmemtl

/-- The identities of the gathered list form a sublist of the scanned
identity sequence. -/
theorem hover_gather_ids_sublist (c : Container) (sw sh mx my : ℚ) :
    ∀ (ids : List Nat) (l : List (Nat × List Nat × Bool)),
      hover_gather c sw sh mx my ids = some l →
      (l.map (fun q => q.1)).Sublist ids := by
  intro ids
  induction ids with
  | nil =>
    intro l hl
    simp only [hover_gather, Option.some.injEq] at hl
    rw [← hl]
    exact List.Sublist.refl _
  | cons a t ih =>
    intro l hl
    cases hgeta : assoc_get a c.elements with
    | none => simp [hover_gather, hgeta] at hl
    | some ea =>
      by_cases hemp : ea.hover_funcs.isEmpty = true
      · simp only [hover_gather, hgeta, hemp, if_true] at hl
        exact (ih l hl).cons a
      · rw [Bool.not_eq_true] at hemp
        cases hgra : get_draw_region c (c.elements.length + 1) ea sw sh with
        | none => simp [hover_gather, hgeta, hemp, hgra] at hl
        | some ra =>
          cases hrest : hover_gather c sw sh mx my t with
          | none => simp [hover_gather, hgeta, hemp, hgra, hrest] at hl
          | some tl =>
            simp only [hover_gather, hgeta, hemp, Bool.false_eq_true, if_false,
              hgra, hrest, Option.some.injEq] at hl
            rw [← hl]
            exact (ih tl hrest).cons₂ a

/-- Every recorded invocation belongs to an element of the gathered
list. -/
theorem hover_invoke_calls_ids :
    ∀ (l : List (Nat × List Nat × Bool)) (c c2 : Container)
      (calls : List (Nat × Bool × List Nat)),
      hover_invoke c l = some (c2, calls) →
      ∀ t ∈ calls, t.1 ∈ l.map (fun q => q.1) := by
  intro l
  induction l with
  | nil =>
    intro c c2 calls hl t ht
    simp only [hover_invoke, Option.some.injEq, Prod.mk.injEq] at hl
    rw [← hl.2] at ht
    simp at ht
  | cons hd u ih =>
    intro c c2 calls hl t ht
    obtain ⟨re, funcs, b⟩ := hd
    cases hgre : assoc_get re c.elements with
    | none => simp [hover_invoke, hgre] at hl
    | some e =>
      cases hrest : hover_invoke (set_elem c re { e with hovered := b }) u with
      | none => simp [hover_invoke, hgre, Element.should_call_hover, hrest] at hl
      | some p =>
        obtain ⟨c2u, tl⟩ := p
        simp only [hover_invoke, hgre, Element.should_call_hover, hrest,
          Option.some.injEq, Prod.mk.injEq] at hl
        rw [← hl.2] at ht
        rcases List.mem_append.mp ht with hhd | htl
        · by_cases hcond : (e.hovered != b) = true
          · simp only [hcond, if_true, List.mem_singleton] at hhd
            rw [hhd]
            exact List.mem_cons_self _ _
          · rw [Bool.not_eq_true] at hcond
            simp [hcond] at hhd
        · exact List.mem_cons_of_mem _ (ih _ c2u tl hrest t htl)

/-- The invocation pass leaves elements whose identity is not gathered
untouched. -/
theorem hover_invoke_not_mem :
    ∀ (l : List (Nat × List Nat × Bool)) (c c2 : Container)
      (calls : List (Nat × Bool × List Nat)) (j : Nat),
      hover_invoke c l = some (c2, calls) →
      j ∉ l.map (fun q => q.1) →
      assoc_get j c2.elements = assoc_get j c.elements := by
  intro l
  induction l with
  | nil =>
    intro c c2 calls j hl _
    simp only [hover_invoke, Option.some.injEq, Prod.mk.injEq] at hl
    rw [← hl.1]
  | cons hd u ih =>
    intro c c2 calls j hl hj
    obtain ⟨re, funcs, b⟩ := hd
    simp only [List.map_cons, List.mem_cons] at hj
    push_neg at hj
    cases hgre : assoc_get re c.elements with
    | none => simp [hover_invoke, hgre] at hl
    | some e =>
      cases hrest : hover_invoke (set_elem c re { e with hovered := b }) u with
      | none => simp [hover_invoke, hgre, Element.should_call_hover, hrest] at hl
      | some p =>
        obtain ⟨c2u, tl⟩ := p
        simp only [hover_invoke, hgre, Element.should_call_hover, hrest,
          Option.some.injEq, Prod.mk.injEq] at hl
        rw [← hl.1]
        rw [ih _ c2u tl j hrest hj.2]
        exact assoc_get_set_elem_ne _ re { e with hovered := b } j hj.1

/-- The per-element dispatch behaviour of the invocation pass: callbacks
fire exactly on a hover transition and the stored state is updated. -/
theorem hover_invoke_spec :
    ∀ (l : List (Nat × List Nat × Bool)) (c c2 : Container)
      (calls : List (Nat × Bool × List Nat)) (id : Nat) (e : Element)
      (funcs : List Nat) (b : Bool),
      (l.map (fun q => q.1)).Nodup →
      hover_invoke c l = some (c2, calls) →
      (id, funcs, b) ∈ l →
      assoc_get id c.elements = some e →
      calls.filter (fun t => t.1 == id) =
        (if e.hovered != b then [(id, b, funcs)] else []) ∧
      assoc_get id c2.elements = some { e with hovered := b } := by
  intro l
  induction l with
  | nil => intro c c2 calls id e funcs b _ _ hmem; simp at hmem
  | cons hd u ih =>
    intro c c2 calls id e funcs b hnd hl hmem hget
    obtain ⟨re, f0, b0⟩ := hd
    simp only [List.map_cons, List.nodup_cons] at hnd
    cases hgre : assoc_get re c.elements with
    | none => simp [hover_invoke, hgre] at hl
    | some e0 =>
      cases hrest : hover_invoke (set_elem c re { e0 with hovered := b0 }) u with
      | none => simp [hover_invoke, hgre, Element.should_call_hover, hrest] at hl
      | some p =>
        obtain ⟨c2u, tl⟩ := p
        simp only [hover_invoke, hgre, Element.should_call_hover, hrest,
          Option.some.injEq, Prod.mk.injEq] at hl
        obtain ⟨hc2, hcalls⟩ := hl
        rcases List.mem_cons.mp hmem with hhd | hmt
        · injection hhd with hid hr't
          injection hr't with hfuncs hb
          subst hid
          subst hfuncs
          subst hb
          rw [hget] at hgre
          injection hgre with he0
          subst he0
          have htlnil : tl.filter (fun t => t.1 == id) = [] := by
            refine List.filter_eq_nil_iff.mpr ?_
            intro t ht
            have := hover_invoke_calls_ids u _ c2u tl hrest t ht
            simp only [beq_iff_eq]
            intro hc
            rw [hc] at this
            exact hnd.1 this
          have hfinal : assoc_get id c2.elements =
              assoc_get id (set_elem c id { e with hovered := b }).elements := by
            rw [← hc2]
            exact hover_invoke_not_mem u _ c2u tl id hrest hnd.1
          constructor
          · rw [← hcalls, List.filter_append, htlnil, List.append_nil]
            by_cases hcond : (e.hovered != b) = true
            · simp [hcond]
            · rw [Bool.not_eq_true] at hcond
              simp [hcond]
          · rw [hfinal, assoc_get_set_elem_self, hget]
            rfl
        · have hidmem : id ∈ u.map (fun q => q.1) := by
            have : (fun (q : Nat × List Nat × Bool) => q.1) (id, funcs, b) ∈
                u.map (fun q => q.1) := List.mem_map_of_mem _ hmt
            exact this
          have hne : id ≠ re := fun hc => hnd.1 (hc ▸ hidmem)
          have hget1 : assoc_get id (set_elem c re { e0 with hovered := b0 }).elements =
              some e := by
            rw [assoc_get_set_elem_ne _ re { e0 with hovered := b0 } id hne]
            exact hget
          obtain ⟨hfilter, hfin⟩ := ih _ c2u tl id e funcs b hnd.2 hrest hmt hget1
          constructor
          · rw [← hcalls, List.filter_append, hfilter]
            have hhdnil : (if (e0.hovered != b0) = true then [(re, b0, f0)] else []).filter
                (fun t => t.1 == id) = [] := by
              refine List.filter_eq_nil_iff.mpr ?_
              intro t ht
              by_cases hcond : (e0.hovered != b0) = true
              · simp only [hcond, if_true, List.mem_singleton] at ht
                subst ht
                simp only [beq_iff_eq]
                exact fun hc => hne hc.symm
              · rw [Bool.not_eq_true] at hcond
                simp [hcond] at ht
            rw [hhdnil, List.nil_append]
          · rw [← hc2]
            exact hfin

/-- The invocation pass only rewrites stored hover states: mode, order,
store size and every element's hover view are preserved. -/
theorem hover_invoke_view :
    ∀ (l : List (Nat × List Nat × Bool)) (c c2 : Container)
      (calls : List (Nat × Bool × List Nat)),
      hover_invoke c l = some (c2, calls) →
      c2.mode = c.mode ∧ c2.elements_list = c.elements_list ∧
      c2.elements.length = c.elements.length ∧
      ∀ j, (assoc_get j c2.elements).map hover_view =
        (assoc_get j c.elements).map hover_view := by
  intro l
  induction l with
  | nil =>
    intro c c2 calls hl
    simp only [hover_invoke, Option.some.injEq, Prod.mk.injEq] at hl
    rw [← hl.1]
    exact ⟨rfl, rfl, rfl, fun j => rfl⟩
  | cons hd u ih =>
    intro c c2 calls hl
    obtain ⟨re, funcs, b⟩ := hd
    cases hgre : assoc_get re c.elements with
    | none => simp [hover_invoke, hgre] at hl
    | some e =>
      cases hrest : hover_invoke (set_elem c re { e with hovered := b }) u with
      | none => simp [hover_invoke, hgre, Element.should_call_hover, hrest] at hl
      | some p =>
        obtain ⟨c2u, tl⟩ := p
        simp only [hover_invoke, hgre, Element.should_call_hover, hrest,
          Option.some.injEq, Prod.mk.injEq] at hl
        obtain ⟨hmode, hlist, hlen, hview⟩ := ih _ c2u tl hrest
        rw [← hl.1]
        refine ⟨hmode, hlist, hlen.trans (List.length_map _ _), ?_⟩
        intro j
        rw [hview j, assoc_get_set_elem]
        by_cases hj : j = re
        · subst hj
          rw [hgre]
          simp [hover_view, layout_view]
        · cases assoc_get j c.elements <;> simp [hj]

/-- The gathering pass depends only on the hover views of the store. -/
theorem hover_gather_congr {c1 c2 : Container}
    (hview : ∀ j, (assoc_get j c2.elements).map hover_view =
      (assoc_get j c1.elements).map hover_view)
    (hlen : c2.elements.length = c1.elements.length) (sw sh mx my : ℚ) :
    ∀ ids, hover_gather c2 sw sh mx my ids = hover_gather c1 sw sh mx my ids := by
  have hlay : ∀ j, (assoc_get j c2.elements).map layout_view =
      (assoc_get j c1.elements).map layout_view := by
    intro j
    have hcomp : ∀ (o : Option Element),
        o.map layout_view = (o.map hover_view).map (fun q => q.1) := by
      intro o
      cases o <;> rfl
    rw [hcomp, hcomp, hview j]
  intro ids
  induction ids with
  | nil => rfl
  | cons a t ih =>
    cases h1 : assoc_get a c1.elements with
    | none =>
      have h2 : assoc_get a c2.elements = none := by
        have h := hview a
        rw [h1] at h
        exact Option.map_eq_none'.mp h
      simp only [hover_gather, h1, h2]
    | some e1 =>
      have h2 : ∃ e2, assoc_get a c2.elements = some e2 ∧
          hover_view e2 = hover_view e1 := by
        have h := hview a
        rw [h1] at h
        exact Option.map_eq_some'.mp h
      obtain ⟨e2, h2get, h2view⟩ := h2
      have hfuncs : e2.hover_funcs = e1.hover_funcs := congrArg Prod.snd h2view
      have hlayv : layout_view e2 = layout_view e1 := congrArg Prod.fst h2view
      have hgr : get_draw_region c2 (c2.elements.length + 1) e2 sw sh =
          get_draw_region c1 (c1.elements.length + 1) e1 sw sh := by
        rw [hlen]
        exact get_draw_region_congr hlay sw sh _ e1 e2 hlayv
      simp only [hover_gather, h1, h2get, hfuncs, hgr, ih]

/-- C5: for every element with a non-empty hover-callback list, a
`hover_at` call invokes its callbacks (passing the new boolean) exactly
when the computed under-pointer boolean differs from the stored hovered
state, and updates the stored state; consequently an immediately repeated
`hover_at` with the pointer unchanged invokes nothing for that
element. -/
theorem claim_C5 :
    ∀ (c : Container) (x y width height : ℚ) (c2 : Container)
      (calls : List (Nat × Bool × List Nat)) (id : Nat) (e : Element) (b : Bool),
      c.elements_list.Nodup →
      hover_at c x y width height = some (c2, calls) →
      assoc_get id c.elements = some e →
      e.hover_funcs ≠ [] →
      id ∈ c.elements_list →
      under_pointer c id x y width height = some b →
      (calls.filter (fun t => t.1 == id) =
        if e.hovered != b then [(id, b, e.hover_funcs)] else []) ∧
      assoc_get id c2.elements = some { e with hovered := b } ∧
      (∀ (c3 : Container) (calls2 : List (Nat × Bool × List Nat)),
        hover_at c2 x y width height = some (c3, calls2) →
        calls2.filter (fun t => t.1 == id) = []) := by
  intro c x y width height c2 calls id e b hnd hhov hget hfuncs hmem hup
  simp only [hover_at] at hhov
  cases hg : hover_gather c (scale_factors c.mode width height).1
      (scale_factors c.mode width height).2 (pointer_virtual x y width height).1
      (pointer_virtual x y width height).2 c.elements_list.reverse with
  | none =>
    rw [hg] at hhov
    exact absurd hhov (by simp)
  | some l =>
    rw [hg] at hhov
    have hinv : hover_invoke c l = some (c2, calls) := hhov
    simp only [under_pointer, hget] at hup
    obtain ⟨r, hr, hb⟩ := Option.map_eq_some'.mp hup
    obtain ⟨r2, hr2, hmeml⟩ := hover_gather_mem c
      (scale_factors c.mode width height).1 (scale_factors c.mode width height).2
      (pointer_virtual x y width height).1 (pointer_virtual x y width height).2
      c.elements_list.reverse l id e hg (List.mem_reverse.mpr hmem) hget hfuncs
    rw [hr] at hr2
    injection hr2 with hr2
    subst hr2
    rw [hb] at hmeml
    have hndl : (l.map (fun q => q.1)).Nodup :=
      (List.nodup_reverse.mpr hnd).sublist
        (hover_gather_ids_sublist c _ _ _ _ c.elements_list.reverse l hg)
    obtain ⟨hA, hB⟩ :=
      hover_invoke_spec l c c2 calls id e e.hover_funcs b hndl hinv hmeml hget
    refine ⟨hA, hB, ?_⟩
    intro c3 calls2 hhov2
    obtain ⟨hmode, hlist, hlen, hview⟩ := hover_invoke_view l c c2 calls hinv
    simp only [hover_at, hmode, hlist] at hhov2
    have hgather2 : hover_gather c2 (scale_factors c.mode width height).1
        (scale_factors c.mode width height).2 (pointer_virtual x y width height).1
        (pointer_virtual x y width height).2 c.elements_list.reverse = some l := by
      rw [hover_gather_congr hview hlen]
      exact hg
    rw [hgather2] at hhov2
    have hinv2 : hover_invoke c2 l = some (c3, calls2) := hhov2
    obtain ⟨hA2, _⟩ := hover_invoke_spec l c2 c3 calls2 id { e with hovered := b }
      e.hover_funcs b hndl hinv2 hmeml hB
    rw [hA2]
    simp

/-- A hoverable element with hover callback [9], initially not hovered,
at (0,0) with size (10,10). -/
def elemZ : Element :=
  { dirty := false
    parent := none
    should_draw := true
    layer := 0
    x := 0
    y := 0
    v_attach := VAttach.Top
    h_attach := HAttach.Left
    click_funcs := []
    hover_funcs := [9]
    hovered := false
    size := (10, 10) }

/-- A container holding only `elemZ` under identity 3, fixed scale 1. -/
def contC5 : Container :=
  { mode := Mode.Unscaled 1
    elements := [(3, elemZ)]
    elements_list := [3] }

/-- `contC5` after the hover-enter transition has been recorded. -/
def contC5h : Container :=
  { mode := Mode.Unscaled 1
    elements := [(3, { elemZ with hovered := true })]
    elements_list := [3] }

/-- C5 witness: with the pointer inside `elemZ`, the first `hover_at`
invokes callback 9 with `true` (a hover-enter transition) and stores the
new hover state; the immediately repeated `hover_at` at the same pointer
invokes nothing. -/
theorem claim_C5_witness :
    (([(3, true, [9])] : List (Nat × Bool × List Nat)).filter (fun t => t.1 == 3) =
      [(3, true, [9])]) ∧
    assoc_get 3 contC5h.elements = some { elemZ with hovered := true } ∧
    (([] : List (Nat × Bool × List Nat)).filter (fun t => t.1 == 3) = []) := by
  have h := claim_C5 contC5 5 5 854 480 contC5h [(3, true, [9])] 3 elemZ true
    (by decide)
    (by simp [hover_at, hover_gather, hover_invoke, contC5, contC5h, elemZ, assoc_get,
          scale_factors, pointer_virtual, get_draw_region, get_draw_region_raw,
          Element.get_size, Element.should_call_hover, set_elem, region_contains, SCREEN,
          SCALED_WIDTH, SCALED_HEIGHT]
        norm_num)
    rfl
    (by decide)
    (by decide)
    (by simp [under_pointer, contC5, elemZ, assoc_get, scale_factors, pointer_virtual,
          get_draw_region, get_draw_region_raw, Element.get_size, region_contains, SCREEN,
          SCALED_WIDTH, SCALED_HEIGHT]
        norm_num)
  refine ⟨h.1, h.2.1, ?_⟩
  exact h.2.2 contC5h []
    (by simp [hover_at, hover_gather, hover_invoke, contC5h, elemZ, assoc_get,
          scale_factors, pointer_virtual, get_draw_region, get_draw_region_raw,
          Element.get_size, Element.should_call_hover, set_elem, region_contains, SCREEN,
          SCALED_WIDTH, SCALED_HEIGHT]
        norm_num)

/-- C10: hit testing ignores visibility and on-screen culling.  `click_at`
results and `hover_at` invocation records are invariant under arbitrary
reassignment of every element's `should_draw` flag; the pointer
containment test is boundary inclusive; the `should_draw` /
screen-intersection checks affect only the per-tick `collect_elements`
map used for drawing, which excludes invisible and off-screen elements;
and both `click_at` and `hover_at` dispatch to an element containing the
pointer even when that element is invisible (`should_draw = false`) and
its resolved region does not intersect the visible screen. -/
theorem claim_C10 :
    (∀ (c : Container) (f : Nat → Bool) (x y width height : ℚ),
      click_at (map_should_draw c f) x y width height = click_at c x y width height) ∧
    (∀ (c : Container) (f : Nat → Bool) (x y width height : ℚ),
      hover_at_calls (map_should_draw c f) x y width height =
        hover_at_calls c x y width height) ∧
    (∀ r : Region, 0 ≤ r.w → 0 ≤ r.h →
      region_contains r (r.x + r.w) (r.y + r.h) = true) ∧
    (∀ (c : Container) (sw sh : ℚ) (id : Nat) (e : Element)
      (m : List (Nat × (Region × Bool))),
      (c.elements.map Prod.fst).Nodup →
      assoc_get id c.elements = some e →
      (e.should_draw = false ∨
        ∃ r, get_draw_region c (c.elements.length + 1) e sw sh = some r ∧
          r.intersects SCREEN = false) →
      collect_elements c sw sh = some m →
      assoc_get id m = none) ∧
    (∀ (c : Container) (x y width height sw sh mx my : ℚ)
      (pre post : List Nat) (b : Nat) (eb : Element) (rb : Region),
      scale_factors c.mode width height = (sw, sh) →
      pointer_virtual x y width height = (mx, my) →
      c.elements_list.reverse = pre ++ b :: post →
      (∀ a ∈ pre, ∃ ea, assoc_get a c.elements = some ea ∧
        (ea.click_funcs = [] ∨
          ∃ ra, get_draw_region c (c.elements.length + 1) ea sw sh = some ra ∧
            region_contains ra mx my = false)) →
      assoc_get b c.elements = some eb →
      eb.click_funcs ≠ [] →
      eb.should_draw = false →
      get_draw_region c (c.elements.length + 1) eb sw sh = some rb →
      rb.intersects SCREEN = false →
      region_contains rb mx my = true →
      click_at c x y width height = some eb.click_funcs) ∧
    (∀ (c : Container) (x y width height : ℚ) (c2 : Container)
      (calls : List (Nat × Bool × List Nat)) (id : Nat) (e : Element) (r : Region),
      c.elements_list.Nodup →
      hover_at c x y width height = some (c2, calls) →
      assoc_get id c.elements = some e →
      e.hover_funcs ≠ [] →
      id ∈ c.elements_list →
      e.should_draw = false →
      get_draw_region c (c.elements.length + 1) e
        (scale_factors c.mode width height).1
        (scale_factors c.mode width height).2 = some r →
      r.intersects SCREEN = false →
      under_pointer c id x y width height = some true →
      e.hovered = false →
      calls.filter (fun t => t.1 == id) = [(id, true, e.hover_funcs)]) := by
  refine ⟨click_at_map_should_draw, hover_at_calls_map_should_draw, ?_, ?_, ?_, ?_⟩
  · intro r hw hh
    simp only [region_contains, Bool.and_eq_true, decide_eq_true_eq]
    refine ⟨⟨⟨?_, ?_⟩, ?_⟩, ?_⟩ <;> linarith
  · intro c sw sh id e m hnd hget hcond hm
    exact collect_go_skip c sw sh c.elements m id e hnd
      (mem_of_assoc_get_some hget) hcond hm
  · intro c x y width height sw sh mx my pre post b eb rb hsf hmv hrev hpre hget hfuncs
      _ hgr _ hcont
    have hskip := click_scan_skip c sw sh mx my pre (b :: post) hpre
    have hhit := click_scan_hit c sw sh mx my b post eb rb hget hfuncs hgr hcont
    simp only [click_at, hsf, hmv, hrev, hskip, hhit]
  · intro c x y width height c2 calls id e r hnd hhov hget hfuncs hmem _ hgr _ hup hho
    simp only [hover_at] at hhov
    cases hg : hover_gather c (scale_factors c.mode width height).1
        (scale_factors c.mode width height).2 (pointer_virtual x y width height).1
        (pointer_virtual x y width height).2 c.elements_list.reverse with
    | none =>
      rw [hg] at hhov
      exact absurd hhov (by simp)
    | some l =>
      rw [hg] at hhov
      have hinv : hover_invoke c l = some (c2, calls) := hhov
      simp only [under_pointer, hget] at hup
      obtain ⟨r2, hr2, hb⟩ := Option.map_eq_some'.mp hup
      obtain ⟨r3, hr3, hmeml⟩ := hover_gather_mem c
        (scale_factors c.mode width height).1 (scale_factors c.mode width height).2
        (pointer_virtual x y width height).1 (pointer_virtual x y width height).2
        c.elements_list.reverse l id e hg (List.mem_reverse.mpr hmem) hget hfuncs
      rw [hr2] at hr3
      injection hr3 with hr3
      subst hr3
      rw [hb] at hmeml
      have hndl : (l.map (fun q => q.1)).Nodup :=
        (List.nodup_reverse.mpr hnd).sublist
          (hover_gather_ids_sublist c _ _ _ _ c.elements_list.reverse l hg)
      obtain ⟨hA, _⟩ :=
        hover_invoke_spec l c c2 calls id e e.hover_funcs true hndl hinv hmeml hget
      rw [hA, hho]
      simp

/-- `elemY` with its visibility switched off. -/
def elemYH : Element := { elemY with should_draw := false }

/-- A container holding only the invisible clickable element `elemYH`
under identity 7. -/
def contHid : Container :=
  { mode := Mode.Unscaled 1
    elements := [(7, elemYH)]
    elements_list := [7] }

/-- An element that is both invisible (`should_draw = false`) and
entirely off screen (region (2000,0,10,10) is beyond the 854-wide
screen), with click callback [5] and hover callback [6]. -/
def elemOff : Element :=
  { dirty := false
    parent := none
    should_draw := false
    layer := 0
    x := 2000
    y := 0
    v_attach := VAttach.Top
    h_attach := HAttach.Left
    click_funcs := [5]
    hover_funcs := [6]
    hovered := false
    size := (10, 10) }

/-- A container holding only the invisible off-screen element `elemOff`
under identity 11, fixed scale 1. -/
def contOff : Container :=
  { mode := Mode.Unscaled 1
    elements := [(11, elemOff)]
    elements_list := [11] }

/-- `contOff` after the hover-enter transition has been recorded. -/
def contOffH : Container :=
  { mode := Mode.Unscaled 1
    elements := [(11, { elemOff with hovered := true })]
    elements_list := [11] }

/-- C10 witness: hit-test results on `contC4` are unchanged when every
element is made invisible; the containment test accepts the far corner of
a region; the invisible element of `contHid` is excluded from the
per-tick draw map; and the pointer at (2005,5) — inside the invisible,
off-screen element `elemOff` whose region does not intersect the screen —
still receives its click callback [5] via `click_at` and its hover
callback [6] via `hover_at`. -/
theorem claim_C10_witness :
    click_at (map_should_draw contC4 (fun _ => false)) 5 5 854 480 =
      click_at contC4 5 5 854 480 ∧
    hover_at_calls (map_should_draw contC4 (fun _ => false)) 5 5 854 480 =
      hover_at_calls contC4 5 5 854 480 ∧
    region_contains { x := 1, y := 2, w := 3, h := 4 } (1 + 3) (2 + 4) = true ∧
    assoc_get 7 ([] : List (Nat × (Region × Bool))) = none ∧
    click_at contOff 2005 5 854 480 = some [5] ∧
    ([(11, true, [6])] : List (Nat × Bool × List Nat)).filter (fun t => t.1 == 11) =
      [(11, true, [6])] := by
  refine ⟨claim_C10.1 contC4 (fun _ => false) 5 5 854 480,
          claim_C10.2.1 contC4 (fun _ => false) 5 5 854 480, ?_, ?_, ?_, ?_⟩
  · exact claim_C10.2.2.1 { x := 1, y := 2, w := 3, h := 4 } (by norm_num) (by norm_num)
  · exact claim_C10.2.2.2.1 contHid 1 1 7 elemYH [] (by decide) rfl (Or.inl rfl) rfl
  · exact claim_C10.2.2.2.2.1 contOff 2005 5 854 480 1 1 2005 5 [] [] 11 elemOff
      { x := 2000, y := 0, w := 10, h := 10 }
      rfl
      (by norm_num [pointer_virtual, SCALED_WIDTH, SCALED_HEIGHT])
      rfl
      (by simp)
      rfl
      (by simp [elemOff])
      rfl
      (by simp [get_draw_region, contOff, elemOff, get_draw_region_raw,
            Element.get_size, SCREEN])
      (by norm_num [Region.intersects, SCREEN, SCALED_WIDTH, SCALED_HEIGHT])
      (by norm_num [region_contains])
  · exact claim_C10.2.2.2.2.2 contOff 2005 5 854 480 contOffH [(11, true, [6])] 11
      elemOff { x := 2000, y := 0, w := 10, h := 10 }
      (by decide)
      (by simp [hover_at, hover_gather, hover_invoke, contOff, contOffH, elemOff,
            assoc_get, scale_factors, pointer_virtual, get_draw_region,
            get_draw_region_raw, Element.get_size, Element.should_call_hover, set_elem,
            region_contains, SCREEN, SCALED_WIDTH, SCALED_HEIGHT]
          norm_num)
      rfl
      (by simp [elemOff])
      (by decide)
      rfl
      (by simp [get_draw_region, contOff, elemOff, get_draw_region_raw,
            Element.get_size, SCREEN, scale_factors])
      (by norm_num [Region.intersects, SCREEN, SCALED_WIDTH, SCALED_HEIGHT])
      (by simp [under_pointer, contOff, elemOff, assoc_get, scale_factors,
            pointer_virtual, get_draw_region, get_draw_region_raw, Element.get_size,
            region_contains, SCREEN, SCALED_WIDTH, SCALED_HEIGHT]
          norm_num)
      rfl

end UI
